/-
Verification of the AusOcean NetSender client firmware (arduino/netsender and
esp/speaker-netsender) against its natural-language specification.

The definitions below are shallow embeddings of the C++ source:
machine integers become Int or Nat (with explicit modular arithmetic where
wraparound matters), Arduino String values become Lean String / List Char,
stateful code becomes explicit state passing, and side effects such as pin
writes and delays become event traces.
-/
import Mathlib

set_option linter.unusedVariables false

/-! ## Clock arithmetic (NetSender.cpp `elapsedMillis`, lines 1374-1382,
and the alarm-duration computation in `run`, lines 1218-1229). -/

/-- Embedding of `elapsedMillis` from NetSender.cpp: `now` and `from` are the
current and starting values of the 32-bit millisecond clock. -/
def elapsedMillis (start now : Nat) : Nat :=
  if now ≥ start then now - start
  else (0xffffffff - start) + now

/-- Embedding of the alarm-duration milliseconds computed in `run`
(NetSender.cpp lines 1220-1224) before the division by 1000: the branch on
`now >= AlarmedTime` with the rolled-over case `(0xffffffff - AlarmedTime) + now`. -/
def runAlarmedMillis (alarmedTime now : Nat) : Nat :=
  if now ≥ alarmedTime then now - alarmedTime
  else (0xffffffff - alarmedTime) + now

/-- The unwrapped reference model: elapsed time as modular subtraction over the
clock's native 32-bit width. -/
def modularElapsed (start now : Nat) : Nat :=
  (now + 2 ^ 32 - start) % 2 ^ 32

/-! ## Network-failure accounting (online.cpp `OnlineHandler::request`,
lines 308-320; the identical logic appears in NetSender.cpp `request`,
lines 867-881). -/

/-- Embedding of the network-failure accounting performed at the end of every
request (online.cpp lines 308-320).  Input: the configured network-alarm
threshold `Config.vars[pvAlarmNetwork]`, whether the HTTP exchange succeeded,
and the current `NetworkFailures` counter.  Output: the new counter value and
whether a non-continuous alarm was raised via `writeAlarm(true, false)`. -/
def requestNetAccounting (alarmNetwork : Int) (success : Bool) (nf : Int) :
    Int × Bool :=
  if success then (0, false)
  else
    let nf' := nf + 1
    if alarmNetwork > 0 ∧ nf' ≥ alarmNetwork then (0, true)
    else (nf', false)

/-! ## Alarm state machine (NetSender.cpp `writeAlarm`, lines 608-637, and
`resetPowerPins`, lines 360-377). -/

/-- Device state touched by `writeAlarm`: the four power-pin levels (true =
HIGH), the dedicated ESP32 alarm-pin level, the alarm indicator
`XPin[xAlarmed]`, the alarm count `XPin[xAlarms]`, and `AlarmedTime`. -/
structure AlarmState where
  power : Fin 4 → Bool
  alarmPin : Bool
  xAlarmed : Bool
  xAlarms : Int
  alarmedTime : Nat
  deriving DecidableEq

/-- Default power-pin levels from the `PowerPins` table: `Power0` (network
equipment) is on by default, the rest are off. -/
def powerPinDefault (i : Fin 4) : Bool := i = 0

/-- Embedding of `resetPowerPins` (NetSender.cpp lines 360-377, ESP32 build):
every power pin is driven to its default level, or to LOW when `alarm` holds,
and the ESP32 alarm pin is driven to `ALARM_LEVEL` exactly when `alarm` holds. -/
def resetPowerPins (alarm : Bool) (s : AlarmState) : AlarmState :=
  { s with
    power := fun i => if alarm then false else powerPinDefault i
    alarmPin := alarm }

/-- Embedding of `writeAlarm` (NetSender.cpp lines 608-637) as a state
transformer that also returns the list of `delay` calls (in milliseconds).
`alarmNetwork`, `alarmVoltage` and `alarmPeriod` are the corresponding
persistent variables; `now` is the value a call to `millis()` would return. -/
def writeAlarm (alarmNetwork alarmVoltage alarmPeriod : Int) (now : Nat)
    (alarm continuous : Bool) (s : AlarmState) : AlarmState × List Int :=
  if !alarm then
    ({ resetPowerPins false s with xAlarmed := false, alarmedTime := 0 }, [])
  else if alarmNetwork = 0 ∧ alarmVoltage = 0 then (s, [])
  else
    let s1 := resetPowerPins true s
    let s2 := { s1 with xAlarms := s1.xAlarms + 1 }
    if continuous then
      ({ s2 with
         xAlarmed := true
         alarmedTime := if s2.alarmedTime = 0 then now else s2.alarmedTime }, [])
    else
      ({ resetPowerPins false s2 with xAlarmed := false }, [alarmPeriod * 1000])

/-! ## HTTP transport (online.cpp `httpRequest`, lines 203-241; the same
function appears in NetSender.cpp, lines 782-820). -/

/-- An abstract HTTP response: status code, the collected `Location` header,
and the response body. -/
structure HttpResponse where
  status : Int
  location : String
  body : String

/-- The redirect statuses handled by the `switch` in `httpRequest`. -/
def isRedirectStatus (status : Int) : Bool :=
  status = 301 ∨ status = 302 ∨ status = 303 ∨ status = 307 ∨ status = 308

/-- Embedding of `httpRequest` (online.cpp lines 203-241).  `server` maps a
request URL to the response the network delivers.  The C++ function recurses
unconditionally on a redirect status, so the embedding is fuel-indexed:
`some (ok, reply)` means the call returned within `fuel` redirect hops, `none`
means it was still recursing when the fuel ran out.  On a non-redirect status
the function returns `ok = (status == 200)` with the body as the reply. -/
def httpRequestFuel (server : String → HttpResponse) :
    Nat → String → String → Option (Bool × String)
  | 0, _, _ => none
  | fuel + 1, url, body =>
    let r := server url
    if isRedirectStatus r.status then
      httpRequestFuel server fuel r.location body
    else if r.status = 200 then some (true, r.body)
    else some (false, "")

/-- A server that answers every request with `301 Moved Permanently` and a
`Location` header: a redirect loop. -/
def redirectLoopServer : String → HttpResponse :=
  fun _ => ⟨301, "http://data.cloudblue.org/loop", ""⟩

/-! ## Pulse generation (NetSender.cpp `pulsePin`, lines 501-527). -/

/-- An observable action of `pulsePin`: a `digitalWrite` of a logic level
(true = HIGH) to a pin, or a `delay` in milliseconds. -/
inductive PinEvent where
  | write (pin : Int) (level : Bool)
  | pause (ms : Int)
  deriving DecidableEq, Repr

/-- Embedding of `pulsePin` (NetSender.cpp lines 501-527) as the trace of pin
writes and delays it performs.  `monPeriod` is `Config.monPeriod`, `suppress`
is `XPin[xPulseSuppress]`; `width` is in seconds and `dutyCycle` in percent. -/
def pulsePin (monPeriod : Int) (suppress : Bool)
    (pin pulses width dutyCycle : Int) : List PinEvent :=
  if pulses ≤ 0 then []
  else if width ≤ 0 ∨ pulses * width > monPeriod then []
  else if dutyCycle < 0 ∨ dutyCycle > 200 then []
  else
    let dc0 := if dutyCycle = 0 then 50 else dutyCycle
    let level : Bool := dc0 > 100
    let dc := if dc0 > 100 then dc0 - 100 else dc0
    let w := width * 1000
    let active := w * dc / 100
    let timing : Nat → Int := fun i => if i % 2 = 0 then active else w - active
    (List.range (2 * pulses).toNat).flatMap fun i =>
      (if suppress then []
       else [PinEvent.write pin (if i % 2 = 1 then level else !level)]) ++
      [PinEvent.pause (timing i)]

/-- The total milliseconds of delay in a pulse trace. -/
def traceDelay (tr : List PinEvent) : Int :=
  (tr.map fun e => match e with
    | PinEvent.pause ms => ms
    | PinEvent.write _ _ => 0).sum

/-! ## Response-field extraction (NetSender.cpp `extractJson`, lines 293-313;
netsender.cpp `netsender_extract_json`, lines 629-668). -/

/-- The suffix of `hay` just after the first occurrence of `q`, or `none` when
`q` does not occur: the embedding of `indexOf`-style first-occurrence search,
returning the remainder instead of the index. -/
def afterFirst (q : List Char) : List Char → Option (List Char)
  | [] => if q.isPrefixOf ([] : List Char) then some [] else none
  | c :: t =>
    if q.isPrefixOf (c :: t) then some ((c :: t).drop q.length)
    else afterFirst q t

/-- Embedding of `extractJson` (NetSender.cpp lines 293-313) on character
lists.  The scan locates the first occurrence of `"name"`, skips one further
character (the colon position) and any spaces, then reads either an integer
run up to the first `,` (or to the end of the string when there is none) or a
quoted string up to the next `"`. -/
def extractJsonC (json name : List Char) : Option (List Char) :=
  match afterFirst ('"' :: (name ++ ['"'])) json with
  | none => none
  | some rest0 =>
    let rest2 := (rest0.drop 1).dropWhile (· = ' ')
    match rest2 with
    | [] => none
    | c :: cr =>
      if c.isDigit ∨ c = '-' then
        some (if ',' ∈ rest2 then rest2.takeWhile (· ≠ ',') else rest2)
      else if c = '"' then
        some (if '"' ∈ cr then cr.takeWhile (· ≠ '"') else cr)
      else none

/-- `extractJson` on strings (value only; `none` plays the role of the
`false` return). -/
def extractJson (json name : String) : Option String :=
  (extractJsonC json.data name.data).map fun l => ⟨l⟩

/-- Embedding of `netsender_extract_json` (netsender.cpp lines 629-668): as
`extractJson`, except that an integer run with no following `,` is terminated
at the next `\x7d` when one exists. -/
def netsenderExtractJsonC (json name : List Char) : Option (List Char) :=
  match afterFirst ('"' :: (name ++ ['"'])) json with
  | none => none
  | some rest0 =>
    let rest2 := (rest0.drop 1).dropWhile (· = ' ')
    match rest2 with
    | [] => none
    | c :: cr =>
      if c.isDigit ∨ c = '-' then
        some (if ',' ∈ rest2 then rest2.takeWhile (· ≠ ',')
              else if '\x7d' ∈ rest2 then rest2.takeWhile (· ≠ '\x7d')
              else rest2)
      else if c = '"' then
        some (if '"' ∈ cr then cr.takeWhile (· ≠ '"') else cr)
      else none

/-- `netsender_extract_json` on strings. -/
def netsender_extract_json (json name : String) : Option String :=
  (netsenderExtractJsonC json.data name.data).map fun l => ⟨l⟩

/-! ## Integer parsing (Arduino `String::toInt`, i.e. `atol`). -/

/-- Value of the leading digit run of `l`. -/
def digitRunVal (l : List Char) : Int :=
  ((l.takeWhile (·.isDigit)).foldl (fun a c => a * 10 + (c.toNat - 48)) 0 : Nat)

/-- Embedding of `atol` as used by Arduino `String::toInt`: skip leading
whitespace, accept an optional sign, read the leading digit run, and return 0
when there are no digits. -/
def atolC (s : List Char) : Int :=
  match s.dropWhile (·.isWhitespace) with
  | '-' :: rest => -(digitRunVal rest)
  | '+' :: rest => digitRunVal rest
  | rest => digitRunVal rest

/-! ## Persistent-variable refresh (NetSender.cpp `getVars`, lines 1020-1085). -/

/-- The fixed-order persistent-variable name table `PvNames`. -/
def PvNames : List String :=
  ["LogLevel", "Pulses", "PulseWidth", "PulseDutyCycle", "PulseCycle",
   "AutoRestart", "AlarmPeriod", "AlarmNetwork", "AlarmVoltage",
   "AlarmRecoveryVoltage", "PeakVoltage"]

/-- The value `getVars` stores into `vars[ii]` before clamping (NetSender.cpp
lines 1037-1068): extract the (`id`-prefixed when an `id` field is present)
variable by name, convert with `toInt`, default missing or zero PeakVoltage to
845 and AutoRestart to 600. -/
def getVarsRaw (reply : String) (ii : Nat) : Int :=
  let name := match extractJson reply "id" with
    | some id => id ++ "." ++ PvNames.getD ii ""
    | none => PvNames.getD ii ""
  let v := match extractJson reply name with
    | some p => atolC p.data
    | none => 0
  if v = 0 then (if ii = 10 then 845 else if ii = 5 then 600 else 0) else v

/-- The variable array returned by a successful `getVars` (NetSender.cpp lines
1020-1085): the raw values with `AlarmVoltage` (index 8) and
`AlarmRecoveryVoltage` (index 9) clamped to `PeakVoltage` (index 10). -/
def getVarsResult (reply : String) (ii : Nat) : Int :=
  if ii = 8 then
    (if getVarsRaw reply 8 > getVarsRaw reply 10 then getVarsRaw reply 10
     else getVarsRaw reply 8)
  else if ii = 9 then
    (if getVarsRaw reply 9 > getVarsRaw reply 10 then getVarsRaw reply 10
     else getVarsRaw reply 9)
  else getVarsRaw reply ii

/-! ## Pin-name validation (netsender.cpp `is_valid_pin_name` lines 706-732
and `check_pins` lines 681-704) and pin-list parsing (NetSender.cpp
`setPins`, lines 336-355). -/

/-- The pin-class letters accepted by `is_valid_pin_name`. -/
def isPinLetter (c : Char) : Bool :=
  c = 'A' ∨ c = 'B' ∨ c = 'D' ∨ c = 'T' ∨ c = 'X'

/-- The specification's pin-name grammar: one class letter followed by one or
two digits. -/
def pinGrammarC (t : List Char) : Bool :=
  match t with
  | [c1, c2] => isPinLetter c1 && c2.isDigit
  | [c1, c2, c3] => isPinLetter c1 && c2.isDigit && c3.isDigit
  | _ => false

/-- `pinGrammarC` on strings. -/
def pinGrammar (t : String) : Bool := pinGrammarC t.data

/-- Embedding of `is_valid_pin_name` (netsender.cpp lines 706-732).  `name` is
the remainder of the pin-list string from the token's first character (the C
function reads `name[1]` and `name[2]` relative to that pointer); `len` is the
token length, with 0 meaning "use the full (null-terminated) length".  Reads
past the end of the list see the terminating null. -/
def is_valid_pin_name (name : List Char) (len : Nat) : Bool :=
  let len := if len = 0 then name.length else len
  if len > 3 then false
  else if isPinLetter (name.getD 0 (Char.ofNat 0)) then
    if !(name.getD 1 (Char.ofNat 0)).isDigit then false
    else if len = 2 then true
    else if !(name.getD 2 (Char.ofNat 0)).isDigit then false
    else true
  else false

/-- The token scan of `check_pins` (netsender.cpp lines 683-699): `none` is an
early `return -1`, `some ii` the count on normal loop exit.  Each loop
iteration consumes at least one character of the remaining string, so the
recursion is driven by a character budget that `check_pins` sets to the
string's length; the budget-exhausted equation is unreachable from
`check_pins`. -/
def checkPinsLoop : Nat → List Char → Nat → Option Nat
  | _, [], ii => some ii
  | 0, _ :: _, _ => none
  | fuel + 1, c :: cs, ii =>
    let tokLen := ((c :: cs).takeWhile (· ≠ ',')).length
    match (c :: cs).dropWhile (· ≠ ',') with
    | [] => if is_valid_pin_name (c :: cs) 0 then some (ii + 1) else none
    | _ :: rest' =>
      if is_valid_pin_name (c :: cs) tokLen then checkPinsLoop fuel rest' (ii + 1)
      else none

/-- Embedding of `check_pins` (netsender.cpp lines 681-704): the number of
comma-separated pin names when all are valid and at most `maxPins` (the
build's `CONFIG_NETSENDER_MAX_PINS`), else -1. -/
def check_pins (names : String) (maxPins : Nat) : Int :=
  match checkPinsLoop names.data.length names.data 0 with
  | none => -1
  | some ii => if ii > maxPins then -1 else (ii : Int)

/-- The comma-separated fields of a character list (the specification's
tokenization of a comma-separated string). -/
def commaFields : List Char → List (List Char)
  | [] => [[]]
  | c :: cs =>
    if c = ',' then [] :: commaFields cs
    else
      match commaFields cs with
      | t :: ts => (c :: t) :: ts
      | [] => [[c]]

/-- The tokens of a comma-separated string as the claim reads them: its
comma-separated fields, with the empty string having no tokens. -/
def claimTokens (s : String) : List (List Char) :=
  if s.data = [] then [] else commaFields s.data

/-- Tokenization as `check_pins` actually scans: comma-separated fields with a
single trailing empty field (from a trailing comma, or from the empty string)
dropped. -/
def commaTokensC (s : List Char) : List (List Char) :=
  let f := commaFields s
  if f.getLast? = some [] then f.dropLast else f

/-- `commaTokensC` on strings. -/
def commaTokens (s : String) : List (List Char) :=
  commaTokensC s.data

/-- Embedding of the `setPins` token loop (NetSender.cpp lines 336-355): the
first argument is the remaining pin budget (`MAX_PINS - ii`). -/
def setPinsGo : Nat → List Char → List (List Char)
  | 0, _ => []
  | _, [] => []
  | budget + 1, c :: cs =>
    let tok := (c :: cs).takeWhile (· ≠ ',')
    match (c :: cs).dropWhile (· ≠ ',') with
    | [] => [tok]
    | _ :: rest' => tok :: setPinsGo budget rest'

/-- Embedding of `setPins` (NetSender.cpp lines 336-355) returning the parsed
pin names in order (the in-use prefix of the `Pin` array; the cleared tail is
not modelled). -/
def setPins (names : String) (maxPins : Nat) : List String :=
  (setPinsGo maxPins names.data).map fun l => ⟨l⟩

/-- Joining pin names with commas (the re-join direction of the round trip). -/
def joinComma : List String → String
  | [] => ""
  | [t] => t
  | t :: ts => t ++ "," ++ joinComma ts

/-! ## Config response handling for pin lists (netsender.cpp
`Netsender::req_config`, lines 397-414). -/

/-- The configuration fields touched by the `ip`/`op` blocks of `req_config`. -/
structure NsConfig where
  inputs : String
  outputs : String
  deriving DecidableEq

/-- Embedding of `pad_copy` (netsender.cpp lines 670-679) as the resulting C
string: the first `size - 1` characters of `src` (the rest of the buffer is
null padding). -/
def pad_copy (src : String) (size : Nat) : String :=
  ⟨src.data.take (size - 1)⟩

/-- Embedding of the `ip` block of `req_config` (netsender.cpp lines
397-405): the input pin list from the response replaces the stored one only
when it differs and `check_pins` accepts it; otherwise the stored
configuration is unchanged. -/
def req_config_ip (maxPins : Nat) (json : String) (cfg : NsConfig) : NsConfig :=
  match netsender_extract_json json "ip" with
  | some param =>
    if param ≠ cfg.inputs then
      if check_pins param maxPins ≥ 0 then
        { cfg with inputs := pad_copy param (maxPins * 4) }
      else cfg
    else cfg
  | none => cfg

/-- Embedding of the `op` block of `req_config` (netsender.cpp lines
406-414), symmetric to the `ip` block. -/
def req_config_op (maxPins : Nat) (json : String) (cfg : NsConfig) : NsConfig :=
  match netsender_extract_json json "op" with
  | some param =>
    if param ≠ cfg.outputs then
      if check_pins param maxPins ≥ 0 then
        { cfg with outputs := pad_copy param (maxPins * 4) }
      else cfg
    else cfg
  | none => cfg

/-- Embedding of the `ip`/`op` handling of `req_config` (netsender.cpp lines
397-414): the `ip` block runs first, then the `op` block on its result. -/
def req_config_pins (maxPins : Nat) (json : String) (cfg : NsConfig) : NsConfig :=
  req_config_op maxPins json (req_config_ip maxPins json cfg)

/-! ## Offline log (offline.cpp `OfflineHandler::request` lines 121-197,
`writeHeader` lines 96-114, `writeRecord` lines 96-100). -/

/-- One fixed-size offline log record: a `{long value, unsigned long
timestamp}` pair. -/
structure ScalarRec where
  value : Int
  timestamp : Nat
  deriving DecidableEq

/-- The reserved sentinel values `datafile::versionMarker` and
`datafile::timeMarker`. -/
def versionMarker : Int := 0x7ffffffe

/-- `datafile::timeMarker`. -/
def timeMarker : Int := 0x7fffffff

/-- The header written by `writeHeader` (offline.cpp lines 104-114): the
version record then the reference-timestamp record (`datafile::version` = 1). -/
def headerRecs (refTs : Nat) : List ScalarRec :=
  [⟨versionMarker, 1⟩, ⟨timeMarker, refTs⟩]

/-- A record is a sentinel when its value is one of the reserved markers. -/
def isSentinel (r : ScalarRec) : Bool :=
  r.value = versionMarker ∨ r.value = timeMarker

/-- One pin write of the Poll branch of `OfflineHandler::request` (offline.cpp
lines 159-194): append to the pin's file, writing the header first when the
file is empty. -/
def appendPinRecord (refTs ts : Nat) (nm : String) (v : Int)
    (fs : String → List ScalarRec) : String → List ScalarRec :=
  fun n =>
    if n = nm then
      fs nm ++ (if fs nm = [] then headerRecs refTs else []) ++ [⟨v, ts⟩]
    else fs n

/-- The Poll branch of `OfflineHandler::request` (offline.cpp lines 143-196)
over the per-pin files: each input pin that has a value appends one data
record (stamped `RefTimestamp + t`) to its own file, after the header when
that file is empty; pins without a value are skipped. -/
def offlinePoll (refTs t : Nat) (inputs : List (String × Option Int))
    (fs : String → List ScalarRec) : String → List ScalarRec :=
  inputs.foldl
    (fun fs inp =>
      match inp.2 with
      | none => fs
      | some v => appendPinRecord refTs (refTs + t) inp.1 v fs)
    fs

/-- The offline-log file invariant: a file is empty, or consists of exactly
the two header sentinels followed only by non-sentinel data records. -/
def GoodFile (refTs : Nat) (f : List ScalarRec) : Prop :=
  f = [] ∨ ∃ ds, f = headerRecs refTs ++ ds ∧ ∀ r ∈ ds, ¬ isSentinel r

/-! ## Theorems -/

/-- C1: at the wrap case start = 0xffffffff - 100, now = 50, both the
`elapsedMillis` computation and the alarm-duration computation in `run` return
150 ms, while the unwrapped modular model over the clock's 32-bit width gives
151 ms: the code's rollover arithmetic is one millisecond short of the modular
subtraction the specification requires. -/
theorem c1_elapsed_rollover_off_by_one :
    elapsedMillis (0xffffffff - 100) 50 = 150 ∧
    runAlarmedMillis (0xffffffff - 100) 50 = 150 ∧
    modularElapsed (0xffffffff - 100) 50 = 151 ∧
    elapsedMillis (0xffffffff - 100) 50 ≠ modularElapsed (0xffffffff - 100) 50 := by
  refine ⟨?_, ?_, ?_, ?_⟩ <;> decide

/-- C3: with a positive network-alarm threshold T, the failure counter stays in
[0, T) after every completed request: success resets it to 0; a failure
increments it, raising the non-continuous alarm and resetting to 0 when the
incremented value reaches T.  In particular, from counter 0 with T = 3, three
consecutive failures leave the counter at 1, 2, then raise the alarm and reset
to 0, and a fourth failure counts from 1. -/
theorem c3_network_failure_counter (T nf : Int) (success : Bool)
    (hT : T > 0) (hnf : 0 ≤ nf) :
    (0 ≤ (requestNetAccounting T success nf).1 ∧
      (requestNetAccounting T success nf).1 < T) ∧
    (success = true → requestNetAccounting T success nf = (0, false)) ∧
    (success = false → nf + 1 ≥ T →
      requestNetAccounting T success nf = (0, true)) ∧
    (success = false → nf + 1 < T →
      requestNetAccounting T success nf = (nf + 1, false)) ∧
    (requestNetAccounting 3 false 0 = (1, false) ∧
      requestNetAccounting 3 false 1 = (2, false) ∧
      requestNetAccounting 3 false 2 = (0, true) ∧
      requestNetAccounting 3 false 0 = (1, false)) := by
  refine ⟨?_, ?_, ?_, ?_, by decide⟩
  · rcases success with _ | _
    · by_cases h : T > 0 ∧ nf + 1 ≥ T
      · have : requestNetAccounting T false nf = (0, true) := by
          unfold requestNetAccounting
          simp only [Bool.false_eq_true, if_false]
          rw [if_pos h]
        rw [this]; exact ⟨le_refl 0, hT⟩
      · have : requestNetAccounting T false nf = (nf + 1, false) := by
          unfold requestNetAccounting
          simp only [Bool.false_eq_true, if_false]
          rw [if_neg h]
        rw [this]
        constructor
        · simp only; omega
        · simp only; omega
    · have : requestNetAccounting T true nf = (0, false) := rfl
      rw [this]; exact ⟨le_refl 0, hT⟩
  · intro hs; subst hs; rfl
  · intro hs hge; subst hs
    unfold requestNetAccounting
    simp only [Bool.false_eq_true, if_false]
    rw [if_pos ⟨hT, hge⟩]
  · intro hs hlt; subst hs
    unfold requestNetAccounting
    simp only [Bool.false_eq_true, if_false]
    rw [if_neg]; omega

/-- Witness for C3 at T = 3, nf = 2, failed request: the counter resets to 0
and the alarm is raised. -/
theorem c3_network_failure_counter_witness :
    (0 ≤ (requestNetAccounting 3 false 2).1 ∧
      (requestNetAccounting 3 false 2).1 < 3) ∧
    (false = true → requestNetAccounting 3 false 2 = (0, false)) ∧
    (false = false → (2 : Int) + 1 ≥ 3 →
      requestNetAccounting 3 false 2 = (0, true)) ∧
    (false = false → (2 : Int) + 1 < 3 →
      requestNetAccounting 3 false 2 = (2 + 1, false)) ∧
    (requestNetAccounting 3 false 0 = (1, false) ∧
      requestNetAccounting 3 false 1 = (2, false) ∧
      requestNetAccounting 3 false 2 = (0, true) ∧
      requestNetAccounting 3 false 0 = (1, false)) :=
  c3_network_failure_counter 3 2 false (by decide) (by decide)

/-- C10: when both the network-alarm and voltage-alarm variables are zero,
`writeAlarm(true, continuous)` is a no-op for either value of `continuous`:
power pins keep their levels, the alarm count and alarmed flag and
`AlarmedTime` are unchanged, and no delay occurs.  `writeAlarm(false,
continuous)` always clears the alarm regardless of those variables: power pins
are reset to their defaults, the alarmed flag is cleared and `AlarmedTime` is
zeroed, with no delay. -/
theorem c10_writeAlarm_frame (alarmNetwork alarmVoltage alarmPeriod : Int)
    (now : Nat) (continuous : Bool) (s : AlarmState)
    (hn : alarmNetwork = 0) (hv : alarmVoltage = 0) :
    writeAlarm alarmNetwork alarmVoltage alarmPeriod now true continuous s
      = (s, []) ∧
    ∀ an av ap : Int,
      writeAlarm an av ap now false continuous s =
        ({ resetPowerPins false s with xAlarmed := false, alarmedTime := 0 }, []) := by
  constructor
  · unfold writeAlarm
    simp [hn, hv]
  · intro an av ap
    rfl

/-- Witness for C10 with both alarm variables zero and a concrete state. -/
theorem c10_writeAlarm_frame_witness :
    (writeAlarm 0 0 60 1234 true true
        ⟨fun _ => true, false, true, 5, 77⟩ =
      (⟨fun _ => true, false, true, 5, 77⟩, [])) ∧
    ∀ an av ap : Int,
      writeAlarm an av ap 1234 false true ⟨fun _ => true, false, true, 5, 77⟩ =
        ({ resetPowerPins false ⟨fun _ => true, false, true, 5, 77⟩ with
            xAlarmed := false, alarmedTime := 0 }, []) :=
  c10_writeAlarm_frame 0 0 60 1234 true ⟨fun _ => true, false, true, 5, 77⟩ rfl rfl

/-- C2: against a server that answers every request with a redirect (here 301
with a `Location` header), `httpRequest` never returns within any finite
number of redirect hops: each redirect re-issues the request with no depth
bound, so no caller-visible failure is ever produced.  This contradicts the
claim that a redirect loop is a caller-visible failure after a bounded
attempt budget. -/
theorem c2_httpRequest_redirect_loop_never_returns :
    ∀ (fuel : Nat) (url body : String),
      httpRequestFuel redirectLoopServer fuel url body = none := by
  intro fuel
  induction fuel with
  | zero => intro url body; rfl
  | succ n ih =>
    intro url body
    show httpRequestFuel redirectLoopServer n "http://data.cloudblue.org/loop" body = none
    exact ih _ _

/-- C4 (counterexample): `pulsePin(pin, 4, 1, 150)` does not drive the pin
HIGH for 500 ms then LOW for 500 ms as claimed: its first write is LOW, since
a duty cycle above 100 inverts the pulse polarity. -/
theorem c4_pulsePin_150_not_high_first :
    pulsePin 60 false 19 4 1 150 ≠
      (List.replicate 4 [PinEvent.write 19 true, PinEvent.pause 500,
        PinEvent.write 19 false, PinEvent.pause 500]).flatten := by
  decide

/-- C4 (amended): `pulsePin(pin, 4, 1, 150)` drives the pin LOW for 500 ms then
HIGH for 500 ms, repeated 4 times, for a total delay of 4000 ms (duty cycle
150 > 100 inverts polarity); for every pin, pulse count and width, duty cycle
0 produces exactly the same writes and delays as duty cycle 50; and no write
or delay is performed when width ≤ 0 or pulses × width exceeds the monitor
period. -/
theorem c4_pulsePin (monPeriod : Int) (suppress : Bool)
    (pin pulses width dutyCycle : Int)
    (hrej : width ≤ 0 ∨ pulses * width > monPeriod) :
    (pulsePin 60 false 19 4 1 150 =
      (List.replicate 4 [PinEvent.write 19 false, PinEvent.pause 500,
        PinEvent.write 19 true, PinEvent.pause 500]).flatten ∧
      traceDelay (pulsePin 60 false 19 4 1 150) = 4000) ∧
    (∀ (mp : Int) (sup : Bool) (p n w : Int),
      pulsePin mp sup p n w 0 = pulsePin mp sup p n w 50) ∧
    pulsePin monPeriod suppress pin pulses width dutyCycle = [] := by
  refine ⟨by decide, ?_, ?_⟩
  · intro mp sup p n w
    rfl
  · unfold pulsePin
    by_cases h0 : pulses ≤ 0
    · rw [if_pos h0]
    · rw [if_neg h0, if_pos hrej]

/-- Witness for C4: rejection at width 0 with 3 pulses and monitor period 60. -/
theorem c4_pulsePin_witness :
    (pulsePin 60 false 19 4 1 150 =
      (List.replicate 4 [PinEvent.write 19 false, PinEvent.pause 500,
        PinEvent.write 19 true, PinEvent.pause 500]).flatten ∧
      traceDelay (pulsePin 60 false 19 4 1 150) = 4000) ∧
    (∀ (mp : Int) (sup : Bool) (p n w : Int),
      pulsePin mp sup p n w 0 = pulsePin mp sup p n w 50) ∧
    pulsePin 60 false 19 3 0 50 = [] :=
  c4_pulsePin 60 false 19 3 0 50 (Or.inl (by decide))

/-- C5: for every Vars response body, the variable array returned by a
successful `getVars` satisfies AlarmVoltage ≤ PeakVoltage and
AlarmRecoveryVoltage ≤ PeakVoltage, because both alarm voltages are clamped
against the peak voltage after parsing. -/
theorem c5_getVars_clamped (reply : String) :
    getVarsResult reply 8 ≤ getVarsResult reply 10 ∧
    getVarsResult reply 9 ≤ getVarsResult reply 10 := by
  have h10 : getVarsResult reply 10 = getVarsRaw reply 10 := by
    simp [getVarsResult]
  have h8 : getVarsResult reply 8 =
      if getVarsRaw reply 8 > getVarsRaw reply 10 then getVarsRaw reply 10
      else getVarsRaw reply 8 := by
    simp [getVarsResult]
  have h9 : getVarsResult reply 9 =
      if getVarsRaw reply 9 > getVarsRaw reply 10 then getVarsRaw reply 10
      else getVarsRaw reply 9 := by
    simp [getVarsResult]
  constructor
  · rw [h8, h10]
    split_ifs with h
    · exact le_refl _
    · omega
  · rw [h9, h10]
    split_ifs with h
    · exact le_refl _
    · omega

/-- C6 (counterexample): on the well-formed flat body `{"rc":0}`, `extractJson`
does not return the bare digit run "0": it returns "0\x7d", including the
trailing brace, because an integer value with no following comma is read to
the end of the string.  The esp32 `netsender_extract_json` does return "0". -/
theorem c6_extractJson_trailing_brace :
    extractJson "\x7b\"rc\":0\x7d" "rc" = some "0\x7d" ∧
    extractJson "\x7b\"rc\":0\x7d" "rc" ≠ some "0" ∧
    netsender_extract_json "\x7b\"rc\":0\x7d" "rc" = some "0" := by
  refine ⟨by decide, by decide, by decide⟩

/-- C7 (counterexample): on the input "A1," the comma-separated token list
is ["A1", ""] and the empty token does not match the pin grammar, yet
`check_pins` does not fail: it ignores the trailing comma and returns 1. -/
theorem c7_check_pins_trailing_comma :
    check_pins "A1," 20 = 1 ∧
    check_pins "A1," 20 ≠ -1 ∧
    claimTokens "A1," = [['A', '1'], []] ∧
    pinGrammarC [] = false := by
  refine ⟨by decide, by decide, by decide, by decide⟩

/-- Appending one non-sentinel data record (with the header first when the
file is empty) preserves the offline-log file invariant. -/
theorem goodFile_append (refTs ts : Nat) (v : Int) (f : List ScalarRec)
    (hf : GoodFile refTs f) (hv : ¬ isSentinel ⟨v, ts⟩ = true) :
    GoodFile refTs (f ++ (if f = [] then headerRecs refTs else []) ++ [⟨v, ts⟩]) := by
  rcases hf with h | ⟨ds, hds, hsent⟩
  · subst h
    right
    refine ⟨[⟨v, ts⟩], by simp, ?_⟩
    intro r hr
    rcases List.mem_singleton.mp hr with rfl
    exact hv
  · right
    have hne : f ≠ [] := by
      rw [hds]; simp [headerRecs]
    refine ⟨ds ++ [⟨v, ts⟩], ?_, ?_⟩
    · rw [if_neg hne, hds]
      simp
    · intro r hr
      rcases List.mem_append.mp hr with h | h
      · exact hsent r h
      · rcases List.mem_singleton.mp h with rfl
        exact hv

/-- A Poll pass over any input list preserves the offline-log file invariant
on every file, provided every written value is in the legal (non-sentinel)
range. -/
theorem offlinePoll_good (refTs t : Nat) :
    ∀ (inputs : List (String × Option Int)) (fs : String → List ScalarRec),
      (∀ nm, GoodFile refTs (fs nm)) →
      (∀ p ∈ inputs, ∀ v : Int, p.2 = some v → ¬ isSentinel ⟨v, refTs + t⟩ = true) →
      ∀ nm, GoodFile refTs (offlinePoll refTs t inputs fs nm) := by
  intro inputs
  induction inputs with
  | nil => intro fs hg hv nm; exact hg nm
  | cons p rest ih =>
    intro fs hg hv nm
    have hstep : ∀ nm',
        GoodFile refTs
          ((match p.2 with
            | none => fs
            | some v => appendPinRecord refTs (refTs + t) p.1 v fs) nm') := by
      intro nm'
      cases hp : p.2 with
      | none => exact hg nm'
      | some v =>
        show GoodFile refTs (appendPinRecord refTs (refTs + t) p.1 v fs nm')
        unfold appendPinRecord
        by_cases hnm : nm' = p.1
        · rw [if_pos hnm]
          exact goodFile_append refTs (refTs + t) v (fs p.1) (hg p.1)
            (hv p (List.mem_cons_self p rest) v hp)
        · rw [if_neg hnm]
          exact hg nm'
    have : offlinePoll refTs t (p :: rest) fs nm =
        offlinePoll refTs t rest
          (match p.2 with
           | none => fs
           | some v => appendPinRecord refTs (refTs + t) p.1 v fs) nm := by
      unfold offlinePoll
      rfl
    rw [this]
    exact ih _ hstep (fun q hq => hv q (List.mem_cons_of_mem p hq)) nm

/-- C8: every per-pin offline log file is empty or begins with exactly the two
sentinel records (version marker then time marker) followed only by data
records, and Polls preserve this: a Poll on an empty file writes the two
sentinels then its data record, and a Poll on a non-empty file appends only
the data record. -/
theorem c8_offline_log_sentinels (refTs t : Nat)
    (inputs : List (String × Option Int)) (fs : String → List ScalarRec)
    (hgood : ∀ nm, GoodFile refTs (fs nm))
    (hvals : ∀ p ∈ inputs, ∀ v : Int, p.2 = some v →
      ¬ isSentinel ⟨v, refTs + t⟩ = true) :
    (∀ nm, GoodFile refTs (offlinePoll refTs t inputs fs nm)) ∧
    offlinePoll 1000 7 [("A1", some 5)] (fun _ => []) "A1" =
      [⟨versionMarker, 1⟩, ⟨timeMarker, 1000⟩, ⟨5, 1007⟩] ∧
    offlinePoll 1000 9 [("A1", some 6)]
        (offlinePoll 1000 7 [("A1", some 5)] (fun _ => [])) "A1" =
      [⟨versionMarker, 1⟩, ⟨timeMarker, 1000⟩, ⟨5, 1007⟩, ⟨6, 1009⟩] := by
  refine ⟨offlinePoll_good refTs t inputs fs hgood hvals, by decide, by decide⟩

/-- Witness for C8: one pin with value 5 over initially empty files. -/
theorem c8_offline_log_sentinels_witness :
    (∀ nm, GoodFile 1000 (offlinePoll 1000 7 [("A1", some 5)] (fun _ => []) nm)) ∧
    offlinePoll 1000 7 [("A1", some 5)] (fun _ => []) "A1" =
      [⟨versionMarker, 1⟩, ⟨timeMarker, 1000⟩, ⟨5, 1007⟩] ∧
    offlinePoll 1000 9 [("A1", some 6)]
        (offlinePoll 1000 7 [("A1", some 5)] (fun _ => [])) "A1" =
      [⟨versionMarker, 1⟩, ⟨timeMarker, 1000⟩, ⟨5, 1007⟩, ⟨6, 1009⟩] :=
  c8_offline_log_sentinels 1000 7 [("A1", some 5)] (fun _ => [])
    (fun _ => Or.inl rfl)
    (by
      intro p hp v hv
      rcases List.mem_singleton.mp hp with rfl
      rcases Option.some.injEq 5 v ▸ hv with h
      rcases h with rfl
      decide)

/-- `takeWhile`/`dropWhile` on a list of satisfying elements followed by a
stopper: the scan yields exactly the satisfying block and the stopper suffix. -/
theorem takeWhile_append_stop {α : Type} (p : α → Bool) (l : List α) (x : α)
    (r : List α) (hl : ∀ a ∈ l, p a = true) (hx : p x = false) :
    (l ++ x :: r).takeWhile p = l ∧ (l ++ x :: r).dropWhile p = x :: r := by
  induction l with
  | nil => simp [List.takeWhile_cons, List.dropWhile_cons, hx]
  | cons a l ih =>
    have ha : p a = true := hl a (List.mem_cons_self a l)
    have ih' := ih fun b hb => hl b (List.mem_cons_of_mem a hb)
    simp [List.cons_append, List.takeWhile_cons, List.dropWhile_cons, ha,
      ih'.1, ih'.2]

/-- `takeWhile`/`dropWhile` on a list all of whose elements satisfy the
predicate. -/
theorem takeWhile_all {α : Type} (p : α → Bool) (l : List α)
    (hl : ∀ a ∈ l, p a = true) :
    l.takeWhile p = l ∧ l.dropWhile p = [] := by
  induction l with
  | nil => exact ⟨rfl, rfl⟩
  | cons a l ih =>
    have ha : p a = true := hl a (List.mem_cons_self a l)
    have ih' := ih fun b hb => hl b (List.mem_cons_of_mem a hb)
    simp [List.takeWhile_cons, List.dropWhile_cons, ha, ih'.1, ih'.2]

/-- A pin-class letter is not a comma. -/
theorem isPinLetter_ne_comma (c : Char) (h : isPinLetter c = true) : c ≠ ',' := by
  have h' := of_decide_eq_true h
  rcases h' with rfl | rfl | rfl | rfl | rfl <;> decide

/-- A digit character is none of the scanner's delimiter characters. -/
theorem isDigit_ne (c d : Char) (h : c.isDigit = true) (hd : d.isDigit = false) :
    c ≠ d := by
  intro he
  rw [he, hd] at h
  exact Bool.false_ne_true h

/-- A grammatical pin name is nonempty and contains no comma. -/
theorem pinGrammarC_no_comma (t : List Char) (h : pinGrammarC t = true) :
    t ≠ [] ∧ ∀ a ∈ t, a ≠ ',' := by
  rcases t with _ | ⟨c1, _ | ⟨c2, _ | ⟨c3, _ | ⟨c4, r⟩⟩⟩⟩
  · exact absurd h (Bool.false_ne_true)
  · exact absurd h (Bool.false_ne_true)
  · rcases Bool.and_eq_true_iff.mp h with ⟨h1, h2⟩
    refine ⟨by simp, ?_⟩
    intro a ha
    rcases List.mem_pair.mp ha with rfl | rfl
    · exact isPinLetter_ne_comma _ h1
    · exact isDigit_ne _ _ h2 (by decide)
  · rcases Bool.and_eq_true_iff.mp h with ⟨h12, h3⟩
    rcases Bool.and_eq_true_iff.mp h12 with ⟨h1, h2⟩
    refine ⟨by simp, ?_⟩
    intro a ha
    rcases ha with _ | ⟨_, ha⟩
    · exact isPinLetter_ne_comma _ h1
    · rcases ha with _ | ⟨_, ha⟩
      · exact isDigit_ne _ _ h2 (by decide)
      · rcases ha with _ | ⟨_, ha⟩
        · exact isDigit_ne _ _ h3 (by decide)
        · cases ha
  · exact absurd h (Bool.false_ne_true)

/-- The `setPins` loop inverts comma-joining: parsing the join of nonempty
comma-free names within budget yields the names in order. -/
theorem setPinsGo_joinComma (ts : List String) : ∀ budget : Nat,
    ts.length ≤ budget →
    (∀ t ∈ ts, t.data ≠ [] ∧ ∀ a ∈ t.data, a ≠ ',') →
    setPinsGo budget (joinComma ts).data = ts.map String.data := by
  induction ts with
  | nil =>
    intro budget _ _
    show setPinsGo budget ("" : String).data = []
    cases budget <;> rfl
  | cons t rest ih =>
    intro budget hlen hfacts
    obtain ⟨b, rfl⟩ : ∃ b, budget = b + 1 := by
      cases budget with
      | zero => exact absurd hlen (by simp)
      | succ b => exact ⟨b, rfl⟩
    have ht := hfacts t (List.mem_cons_self t rest)
    obtain ⟨c, cs, hc⟩ : ∃ c cs, t.data = c :: cs := by
      rcases hd : t.data with _ | ⟨c, cs⟩
      · exact absurd hd ht.1
      · exact ⟨c, cs, rfl⟩
    have hcomma : ∀ a ∈ t.data, (fun x => decide (¬ x = ',')) a = true := by
      intro a ha
      exact decide_eq_true (ht.2 a ha)
    cases rest with
    | nil =>
      have hjoin : (joinComma [t]).data = c :: cs := by
        show t.data = c :: cs
        exact hc
      rw [hjoin]
      have hall := takeWhile_all (fun x => decide (¬ x = ',')) (c :: cs)
        (by rw [← hc]; exact hcomma)
      show setPinsGo (b + 1) (c :: cs) = [t.data]
      unfold setPinsGo
      rw [hall.2, hall.1, hc]
    | cons t' rest' =>
      have hjoin : (joinComma (t :: t' :: rest')).data =
          c :: (cs ++ ',' :: (joinComma (t' :: rest')).data) := by
        show (t ++ "," ++ joinComma (t' :: rest')).data = _
        rw [String.data_append, String.data_append, hc, List.append_assoc]
        rfl
      rw [hjoin]
      have hsplit := takeWhile_append_stop (fun x => decide (¬ x = ',')) (c :: cs)
        ',' (joinComma (t' :: rest')).data (by rw [← hc]; exact hcomma) (by decide)
      simp only [List.cons_append] at hsplit
      unfold setPinsGo
      dsimp only
      rw [hsplit.2]
      dsimp only
      rw [hsplit.1, ← hc]
      congr 1
      exact ih b
        (by simp only [List.length_cons] at hlen ⊢; omega)
        (fun u hu => hfacts u (List.mem_cons_of_mem t hu))

/-- C9: for every list of at most `maxPins` grammatical pin names, parsing the
comma-joined list with `setPins` returns exactly those names in order (so
re-joining them reproduces the input string), re-parsing the re-joined string
is idempotent, and the reported size equals the number of names. -/
theorem c9_setPins_roundtrip (maxPins : Nat) (ts : List String)
    (hlen : ts.length ≤ maxPins) (hval : ∀ t ∈ ts, pinGrammar t = true) :
    setPins (joinComma ts) maxPins = ts ∧
    joinComma (setPins (joinComma ts) maxPins) = joinComma ts ∧
    setPins (joinComma (setPins (joinComma ts) maxPins)) maxPins = ts ∧
    (setPins (joinComma ts) maxPins).length = ts.length := by
  have hfacts : ∀ t ∈ ts, t.data ≠ [] ∧ ∀ a ∈ t.data, a ≠ ',' := by
    intro t ht
    exact pinGrammarC_no_comma t.data (hval t ht)
  have h1 : setPins (joinComma ts) maxPins = ts := by
    unfold setPins
    rw [setPinsGo_joinComma ts maxPins hlen hfacts]
    rw [List.map_map]
    exact List.map_id'' (fun x => rfl) ts
  refine ⟨h1, by rw [h1], by rw [h1]; exact h1, by rw [h1]⟩

/-- Witness for C9 at the pin list ["A0", "D2"] with a budget of 10. -/
theorem c9_setPins_roundtrip_witness :
    setPins (joinComma ["A0", "D2"]) 10 = ["A0", "D2"] ∧
    joinComma (setPins (joinComma ["A0", "D2"]) 10) = joinComma ["A0", "D2"] ∧
    setPins (joinComma (setPins (joinComma ["A0", "D2"]) 10)) 10 = ["A0", "D2"] ∧
    (setPins (joinComma ["A0", "D2"]) 10).length = (["A0", "D2"] : List String).length :=
  c9_setPins_roundtrip 10 ["A0", "D2"] (by decide)
    (by intro t ht; rcases ht with _ | ⟨_, _ | ⟨_, h⟩⟩ <;> first | decide | cases ‹_ ∈ ([] : List String)›)

/-- `is_valid_pin_name` rejects any explicit length above 3
(`NETSENDER_PIN_SIZE - 1`). -/
theorem is_valid_long (name : List Char) (len : Nat) (h : len > 3) :
    is_valid_pin_name name len = false := by
  unfold is_valid_pin_name
  rw [if_neg (by omega : ¬ len = 0), if_pos h]

/-- `is_valid_pin_name` with len 0 rejects any name longer than 3. -/
theorem is_valid0_long (name : List Char) (h : name.length > 3) :
    is_valid_pin_name name 0 = false := by
  unfold is_valid_pin_name
  rw [if_pos rfl, if_pos h]

/-- `is_valid_pin_name` with len 0 (a null-terminated final token) decides
exactly the pin-name grammar. -/
theorem valid0_eq_grammar (s : List Char) :
    is_valid_pin_name s 0 = pinGrammarC s := by
  rcases s with _ | ⟨a, _ | ⟨b, _ | ⟨c, _ | ⟨d, t⟩⟩⟩⟩
  · rfl
  · cases h : isPinLetter a <;> simp [is_valid_pin_name, pinGrammarC, h]
  · cases h : isPinLetter a <;> cases hb : b.isDigit <;>
      simp [is_valid_pin_name, pinGrammarC, h, hb]
  · cases h : isPinLetter a <;> cases hb : b.isDigit <;> cases hc : c.isDigit <;>
      simp [is_valid_pin_name, pinGrammarC, h, hb, hc]
  · rw [is_valid0_long _ (by simp only [List.length_cons]; omega)]
    rfl

/-- `is_valid_pin_name` on a mid-list token (token length, with the separating
comma and the rest of the string still in view past the token) decides exactly
the pin-name grammar of the token. -/
theorem validMid_eq_grammar (tok rest : List Char) :
    is_valid_pin_name (tok ++ ',' :: rest) tok.length = pinGrammarC tok := by
  rcases tok with _ | ⟨a, _ | ⟨b, _ | ⟨c, _ | ⟨d, t⟩⟩⟩⟩
  · show is_valid_pin_name (',' :: rest) 0 = false
    unfold is_valid_pin_name
    rw [if_pos rfl]
    by_cases hl : (',' :: rest).length > 3
    · rw [if_pos hl]
    · rw [if_neg hl]
      rw [show ((',' :: rest).getD 0 (Char.ofNat 0)) = ',' from rfl]
      rw [if_neg (by decide : ¬ isPinLetter ',' = true)]
  · cases h : isPinLetter a <;>
      simp [is_valid_pin_name, pinGrammarC, h]
  · cases h : isPinLetter a <;> cases hb : b.isDigit <;>
      simp [is_valid_pin_name, pinGrammarC, h, hb]
  · cases h : isPinLetter a <;> cases hb : b.isDigit <;> cases hc : c.isDigit <;>
      simp [is_valid_pin_name, pinGrammarC, h, hb, hc]
  · rw [is_valid_long _ _ (by simp only [List.length_cons]; omega)]
    rfl

/-- `commaFields` never returns the empty list of fields. -/
theorem commaFields_ne_nil (s : List Char) : commaFields s ≠ [] := by
  induction s with
  | nil => simp [commaFields]
  | cons c cs ih =>
    unfold commaFields
    by_cases hc : c = ','
    · simp [hc]
    · rw [if_neg hc]
      rcases h : commaFields cs with _ | ⟨t, ts⟩
      · exact absurd h ih
      · simp

/-- A comma-free string is a single field. -/
theorem commaFields_no_comma (s : List Char) (h : ∀ a ∈ s, a ≠ ',') :
    commaFields s = [s] := by
  induction s with
  | nil => rfl
  | cons c cs ih =>
    unfold commaFields
    rw [if_neg (h c (List.mem_cons_self c cs))]
    rw [ih fun a ha => h a (List.mem_cons_of_mem c ha)]

/-- Splitting at the first comma: the fields of `tok ++ ',' :: r` are `tok`
followed by the fields of `r`, for comma-free `tok`. -/
theorem commaFields_append (tok r : List Char) (h : ∀ a ∈ tok, a ≠ ',') :
    commaFields (tok ++ ',' :: r) = tok :: commaFields r := by
  induction tok with
  | nil => simp [commaFields]
  | cons c tok' ih =>
    show commaFields (c :: (tok' ++ ',' :: r)) = (c :: tok') :: commaFields r
    conv_lhs => rw [commaFields]
    rw [if_neg (h c (List.mem_cons_self c tok'))]
    rw [ih fun a ha => h a (List.mem_cons_of_mem c ha)]

/-- The scanner's tokenization of the empty string is empty. -/
theorem commaTokensC_nil : commaTokensC [] = [] := rfl

/-- The scanner's tokenization of a nonempty comma-free string is that string
as its only token. -/
theorem commaTokensC_no_comma (s : List Char) (hne : s ≠ [])
    (h : ∀ a ∈ s, a ≠ ',') : commaTokensC s = [s] := by
  unfold commaTokensC
  rw [commaFields_no_comma s h]
  rw [if_neg]
  simp [hne]

/-- The scanner's tokenization steps over the first comma. -/
theorem commaTokensC_append (tok r : List Char) (h : ∀ a ∈ tok, a ≠ ',') :
    commaTokensC (tok ++ ',' :: r) = tok :: commaTokensC r := by
  unfold commaTokensC
  rw [commaFields_append tok r h]
  rcases hf : commaFields r with _ | ⟨f0, fs⟩
  · exact absurd hf (commaFields_ne_nil r)
  · dsimp only
    rw [List.getLast?_cons_cons, List.dropLast_cons₂]
    by_cases hlast : (f0 :: fs).getLast? = some []
    · rw [if_pos hlast, if_pos hlast]
    · rw [if_neg hlast, if_neg hlast]

/-- The head of a non-nil `dropWhile` fails the predicate. -/
theorem dropWhile_head_false {α : Type} (p : α → Bool) (l : List α) (x : α)
    (r : List α) (h : l.dropWhile p = x :: r) : p x = false := by
  have h0 : 0 < (l.dropWhile p).length := by rw [h]; simp
  have hn := List.dropWhile_get_zero_not (p := p) l h0
  have hx : (l.dropWhile p).get ⟨0, h0⟩ = x := by
    have := List.get_of_eq h ⟨0, h0⟩
    simpa using this
  rw [hx] at hn
  exact Bool.eq_false_iff.mpr hn

/-- Characterization of the `check_pins` token scan: with enough character
budget it succeeds with the token count exactly when every scanned token is
grammatical, and fails otherwise. -/
theorem checkPinsLoop_spec : ∀ (fuel : Nat) (s : List Char),
    s.length ≤ fuel → ∀ ii : Nat,
    checkPinsLoop fuel s ii =
      if ∀ t ∈ commaTokensC s, pinGrammarC t = true
      then some (ii + (commaTokensC s).length) else none := by
  intro fuel
  induction fuel with
  | zero =>
    intro s hs ii
    have hnil : s = [] := List.length_eq_zero.mp (Nat.le_zero.mp hs)
    subst hnil
    rw [commaTokensC_nil]
    simp [checkPinsLoop]
  | succ n ih =>
    intro s hs ii
    rcases s with _ | ⟨c, cs⟩
    · rw [commaTokensC_nil]
      simp [checkPinsLoop]
    · rcases hrest : (c :: cs).dropWhile (fun x => decide (¬ x = ',')) with _ | ⟨x, rest'⟩
      · -- No comma in the string: single token.
        have hall : ∀ a ∈ c :: cs, (fun x => decide (¬ x = ',')) a = true := by
          intro a ha
          exact List.dropWhile_eq_nil_iff.mp hrest a ha
        have hne : ∀ a ∈ c :: cs, a ≠ ',' :=
          fun a ha => of_decide_eq_true (hall a ha)
        rw [commaTokensC_no_comma _ (by simp) hne]
        unfold checkPinsLoop
        dsimp only
        rw [hrest, valid0_eq_grammar]
        cases hg : pinGrammarC (c :: cs) <;> simp [hg]
      · -- The first token ends at a comma.
        have hx : x = ',' := by
          have := dropWhile_head_false _ _ _ _ hrest
          simpa using this
        subst hx
        have hd : (c :: cs).takeWhile (fun x => decide (¬ x = ',')) ++ ',' :: rest'
            = c :: cs := by
          conv_rhs => rw [← List.takeWhile_append_dropWhile
            (p := fun x => decide (¬ x = ',')) (l := c :: cs)]
          rw [hrest]
        have htokC : ∀ a ∈ (c :: cs).takeWhile (fun x => decide (¬ x = ',')),
            a ≠ ',' := by
          intro a ha
          have := List.mem_takeWhile_imp ha
          simpa using this
        have hvalid := validMid_eq_grammar
          ((c :: cs).takeWhile (fun x => decide (¬ x = ','))) rest'
        rw [hd] at hvalid
        have hct := commaTokensC_append
          ((c :: cs).takeWhile (fun x => decide (¬ x = ','))) rest' htokC
        rw [hd] at hct
        have hlen' : rest'.length ≤ n := by
          have : ((c :: cs).takeWhile (fun x => decide (¬ x = ',')) ++
              ',' :: rest').length = (c :: cs).length := by rw [hd]
          simp only [List.length_append, List.length_cons] at this hs
          omega
        unfold checkPinsLoop
        dsimp only
        rw [hrest]
        dsimp only
        rw [hvalid, hct]
        cases hg : pinGrammarC ((c :: cs).takeWhile (fun x => decide (¬ x = ','))) with
        | false =>
          rw [if_neg Bool.false_ne_true, if_neg]
          intro hcon
          have := hcon _ (List.mem_cons_self _ _)
          rw [hg] at this
          exact Bool.false_ne_true this
        | true =>
          rw [if_pos rfl, ih rest' hlen' (ii + 1)]
          by_cases hall' : ∀ t ∈ commaTokensC rest', pinGrammarC t = true
          · rw [if_pos hall', if_pos]
            · simp only [List.length_cons, Option.some.injEq]
              omega
            · intro t ht
              rcases List.mem_cons.mp ht with rfl | ht'
              · exact hg
              · exact hall' t ht'
          · rw [if_neg hall', if_neg]
            intro hcon
            exact hall' fun t ht => hcon t (List.mem_cons_of_mem _ ht)

/-- The `ip` block never touches the stored output list. -/
theorem req_config_ip_outputs (maxPins : Nat) (json : String) (cfg : NsConfig) :
    (req_config_ip maxPins json cfg).outputs = cfg.outputs := by
  unfold req_config_ip
  rcases hE : netsender_extract_json json "ip" with _ | q
  · rfl
  · dsimp only
    split_ifs <;> rfl

/-- The `op` block never touches the stored input list. -/
theorem req_config_op_inputs (maxPins : Nat) (json : String) (cfg : NsConfig) :
    (req_config_op maxPins json cfg).inputs = cfg.inputs := by
  unfold req_config_op
  rcases hE : netsender_extract_json json "op" with _ | q
  · rfl
  · dsimp only
    split_ifs <;> rfl

/-- A rejected input pin list leaves the configuration unchanged. -/
theorem req_config_ip_reject (maxPins : Nat) (json : String) (cfg : NsConfig)
    (p : String) (hip : netsender_extract_json json "ip" = some p)
    (hchk : check_pins p maxPins < 0) :
    req_config_ip maxPins json cfg = cfg := by
  unfold req_config_ip
  rw [hip]
  dsimp only
  by_cases hne : p ≠ cfg.inputs
  · rw [if_pos hne, if_neg (by omega)]
  · rw [if_neg hne]

/-- A rejected output pin list leaves the configuration unchanged. -/
theorem req_config_op_reject (maxPins : Nat) (json : String) (cfg : NsConfig)
    (p : String) (hop : netsender_extract_json json "op" = some p)
    (hchk : check_pins p maxPins < 0) :
    req_config_op maxPins json cfg = cfg := by
  unfold req_config_op
  rw [hop]
  dsimp only
  by_cases hne : p ≠ cfg.outputs
  · rw [if_pos hne, if_neg (by omega)]
  · rw [if_neg hne]

/-- C7 (amended): `check_pins` returns the token count when every
comma-separated token matches the `<Letter><1-2 digits>` grammar (letter one
of A, B, D, T, X) and the count is at most the maximum, and returns -1 (never
a partial list) when any token is invalid or the count exceeds the maximum —
where a single trailing empty token produced by a trailing comma is ignored
by the scanner; and when a Config response's ip or op list is rejected by
`check_pins`, `req_config` leaves the stored inputs and outputs unchanged. -/
theorem c7_check_pins :
    (∀ (s : String) (maxPins : Nat),
      (∀ t ∈ commaTokens s, pinGrammarC t = true) →
      (commaTokens s).length ≤ maxPins →
      check_pins s maxPins = ((commaTokens s).length : Int)) ∧
    (∀ (s : String) (maxPins : Nat),
      ((∃ t ∈ commaTokens s, ¬ pinGrammarC t = true) ∨
        (commaTokens s).length > maxPins) →
      check_pins s maxPins = -1) ∧
    (∀ (maxPins : Nat) (json : String) (cfg : NsConfig) (p : String),
      netsender_extract_json json "ip" = some p → check_pins p maxPins < 0 →
      (req_config_pins maxPins json cfg).inputs = cfg.inputs) ∧
    (∀ (maxPins : Nat) (json : String) (cfg : NsConfig) (p : String),
      netsender_extract_json json "op" = some p → check_pins p maxPins < 0 →
      (req_config_pins maxPins json cfg).outputs = cfg.outputs) := by
  refine ⟨?_, ?_, ?_, ?_⟩
  · intro s maxPins hall hlen
    rw [show commaTokens s = commaTokensC s.data from rfl] at hall hlen ⊢
    unfold check_pins
    rw [checkPinsLoop_spec s.data.length s.data (le_refl _) 0]
    rw [if_pos hall]
    dsimp only
    rw [if_neg (by simpa using hlen)]
    simp [commaTokens]
  · intro s maxPins hbad
    rw [show commaTokens s = commaTokensC s.data from rfl] at hbad
    unfold check_pins
    rw [checkPinsLoop_spec s.data.length s.data (le_refl _) 0]
    rcases hbad with ⟨t, ht, hg⟩ | hover
    · rw [if_neg fun hcon => hg (hcon t ht)]
    · by_cases hall : ∀ t ∈ commaTokensC s.data, pinGrammarC t = true
      · rw [if_pos hall]
        dsimp only
        rw [if_pos (by simpa [commaTokens] using hover)]
      · rw [if_neg hall]
  · intro maxPins json cfg p hip hchk
    unfold req_config_pins
    rw [req_config_op_inputs, req_config_ip_reject maxPins json cfg p hip hchk]
  · intro maxPins json cfg p hop hchk
    unfold req_config_pins
    rw [req_config_op_reject maxPins json _ p hop hchk, req_config_ip_outputs]

/-- Witness for C7: "A1,D2" parses as two grammatical tokens with
`check_pins` returning 2; "A1,E2" is rejected with -1; and a rejected ip list
leaves the inputs unchanged. -/
theorem c7_check_pins_witness :
    check_pins "A1,D2" 20 = (2 : Int) ∧
    check_pins "A1,E2" 20 = -1 ∧
    (req_config_pins 20 "\x7b\"ip\":\"A1,E2\"\x7d" ⟨"A1", "D2"⟩).inputs = "A1" := by
  refine ⟨?_, ?_, ?_⟩
  · have h := c7_check_pins.1 "A1,D2" 20 (by decide) (by decide)
    rw [h]
    decide
  · exact c7_check_pins.2.1 "A1,E2" 20
      (Or.inl ⟨['E', '2'], by decide, by decide⟩)
  · exact c7_check_pins.2.2.1 20 "\x7b\"ip\":\"A1,E2\"\x7d" ⟨"A1", "D2"⟩ "A1,E2"
      (by decide) (by decide)

/-- A successful `isPrefixOf` splits the list. -/
theorem isPrefixOf_append {α : Type} [DecidableEq α] :
    ∀ (q l : List α), q.isPrefixOf l = true → l = q ++ l.drop q.length := by
  intro q
  induction q with
  | nil => intro l _; rfl
  | cons a q' ih =>
    intro l h
    rcases l with _ | ⟨b, l'⟩
    · exact absurd h (by simp [List.isPrefixOf])
    · rw [List.isPrefixOf_cons₂] at h
      rcases Bool.and_eq_true_iff.mp h with ⟨hab, hq⟩
      have hab' : a = b := by simpa using hab
      subst hab'
      rw [List.length_cons, List.drop_succ_cons, List.cons_append]
      rw [← ih l' hq]

/-- If `afterFirst` finds `q`, the haystack splits around an occurrence of
`q` with the returned suffix after it. -/
theorem afterFirst_some (q : List Char) : ∀ (hay r : List Char),
    afterFirst q hay = some r → ∃ pre, hay = pre ++ q ++ r := by
  intro hay
  induction hay with
  | nil =>
    intro r h
    unfold afterFirst at h
    by_cases hq : q.isPrefixOf ([] : List Char) = true
    · rw [if_pos hq] at h
      injection h with h'
      subst h'
      refine ⟨[], ?_⟩
      have := isPrefixOf_append q [] hq
      simpa using this
    · rw [if_neg hq] at h
      cases h
  | cons c t ih =>
    intro r h
    unfold afterFirst at h
    by_cases hq : q.isPrefixOf (c :: t) = true
    · rw [if_pos hq] at h
      injection h with h'
      subst h'
      refine ⟨[], ?_⟩
      have := isPrefixOf_append q (c :: t) hq
      simpa using this
    · rw [if_neg hq] at h
      obtain ⟨pre, hpre⟩ := ih r h
      exact ⟨c :: pre, by rw [List.cons_append, List.cons_append, ← hpre]⟩

/-- When `q` occurs nowhere in the haystack, `afterFirst` fails. -/
theorem afterFirst_none (q hay : List Char)
    (h : ¬ ∃ pre post, hay = pre ++ q ++ post) : afterFirst q hay = none := by
  rcases hr : afterFirst q hay with _ | r
  · rfl
  · obtain ⟨pre, hpre⟩ := afterFirst_some q hay r hr
    exact absurd ⟨pre, r, hpre⟩ h

/-- `dropWhile` of spaces stops at a non-space head. -/
theorem dropWhile_space_head (c : Char) (t : List Char) (hc : ¬ c = ' ') :
    (c :: t).dropWhile (fun x => decide (x = ' ')) = c :: t := by
  rw [List.dropWhile_cons_of_neg]
  simpa using hc

/-- `dropWhile` of spaces consumes exactly a leading run of spaces. -/
theorem dropWhile_space_replicate (k : Nat) (c : Char) (t : List Char)
    (hc : ¬ c = ' ') :
    (List.replicate k ' ' ++ (c :: t)).dropWhile (fun x => decide (x = ' ')) =
      c :: t := by
  induction k with
  | zero => simpa using dropWhile_space_head c t hc
  | succ n ih =>
    rw [List.replicate_succ, List.cons_append, List.dropWhile_cons_of_pos (by decide)]
    exact ih

/-- Reduction of the `extractJson` scan once the key has been located: with
the colon skipped and spaces consumed, the scan dispatches on the value's
first character. -/
theorem extractJsonC_reduce (json nm : List Char) (k : Nat) (c : Char)
    (t : List Char)
    (haf : afterFirst ('"' :: (nm ++ ['"'])) json =
      some (':' :: (List.replicate k ' ' ++ (c :: t))))
    (hc : ¬ c = ' ') :
    extractJsonC json nm =
      (if c.isDigit ∨ c = '-' then
        some (if ',' ∈ c :: t then (c :: t).takeWhile (· ≠ ',') else c :: t)
      else if c = '"' then
        some (if '"' ∈ t then t.takeWhile (· ≠ '"') else t)
      else none) := by
  unfold extractJsonC
  rw [haf]
  dsimp only
  rw [show (':' :: (List.replicate k ' ' ++ (c :: t))).drop 1 =
    List.replicate k ' ' ++ (c :: t) from rfl]
  rw [dropWhile_space_replicate k c t hc]

/-- Reduction of the `netsender_extract_json` scan once the key has been
located. -/
theorem netsenderExtractJsonC_reduce (json nm : List Char) (k : Nat) (c : Char)
    (t : List Char)
    (haf : afterFirst ('"' :: (nm ++ ['"'])) json =
      some (':' :: (List.replicate k ' ' ++ (c :: t))))
    (hc : ¬ c = ' ') :
    netsenderExtractJsonC json nm =
      (if c.isDigit ∨ c = '-' then
        some (if ',' ∈ c :: t then (c :: t).takeWhile (· ≠ ',')
              else if '\x7d' ∈ c :: t then (c :: t).takeWhile (· ≠ '\x7d')
              else c :: t)
      else if c = '"' then
        some (if '"' ∈ t then t.takeWhile (· ≠ '"') else t)
      else none) := by
  unfold netsenderExtractJsonC
  rw [haf]
  dsimp only
  rw [show (':' :: (List.replicate k ' ' ++ (c :: t))).drop 1 =
    List.replicate k ' ' ++ (c :: t) from rfl]
  rw [dropWhile_space_replicate k c t hc]

/-- Integer value followed by a comma: both extractors return exactly the
signed digit run. -/
theorem extract_int_comma (json nm : List Char) (k : Nat) (sgn ds r : List Char)
    (haf : afterFirst ('"' :: (nm ++ ['"'])) json =
      some (':' :: (List.replicate k ' ' ++ ((sgn ++ ds) ++ (',' :: r)))))
    (hsgn : sgn = [] ∨ sgn = ['-']) (hds : ds ≠ [])
    (hdig : ∀ d ∈ ds, d.isDigit = true) :
    extractJsonC json nm = some (sgn ++ ds) ∧
    netsenderExtractJsonC json nm = some (sgn ++ ds) := by
  rcases hsgn with rfl | rfl
  · obtain ⟨d, ds', rfl⟩ : ∃ d ds', ds = d :: ds' := by
      rcases ds with _ | ⟨d, ds'⟩
      · exact absurd rfl hds
      · exact ⟨d, ds', rfl⟩
    simp only [List.nil_append, List.cons_append] at haf ⊢
    have hcd : ¬ d = ' ' := isDigit_ne d ' ' (hdig d (by simp)) (by decide)
    have hmem : ',' ∈ d :: (ds' ++ ',' :: r) := by simp
    have hstop := takeWhile_append_stop (fun x => decide (¬ x = ','))
      (d :: ds') ',' r
      (fun a ha => decide_eq_true (isDigit_ne a ',' (hdig a ha) (by decide)))
      (by decide)
    constructor
    · rw [extractJsonC_reduce json nm k d (ds' ++ ',' :: r) haf hcd]
      rw [if_pos (Or.inl (hdig d (by simp))), if_pos hmem]
      rw [show (d :: (ds' ++ ',' :: r)) = (d :: ds') ++ ',' :: r from rfl]
      rw [hstop.1]
    · rw [netsenderExtractJsonC_reduce json nm k d (ds' ++ ',' :: r) haf hcd]
      rw [if_pos (Or.inl (hdig d (by simp))), if_pos hmem]
      rw [show (d :: (ds' ++ ',' :: r)) = (d :: ds') ++ ',' :: r from rfl]
      rw [hstop.1]
  · simp only [List.cons_append, List.nil_append] at haf ⊢
    have hcd : ¬ '-' = ' ' := by decide
    have hmem : ',' ∈ '-' :: (ds ++ ',' :: r) := by simp
    have hstop := takeWhile_append_stop (fun x => decide (¬ x = ','))
      ('-' :: ds) ',' r
      (by
        intro a ha
        rcases List.mem_cons.mp ha with rfl | ha'
        · decide
        · exact decide_eq_true (isDigit_ne a ',' (hdig a ha') (by decide)))
      (by decide)
    constructor
    · rw [extractJsonC_reduce json nm k '-' (ds ++ ',' :: r) haf hcd]
      rw [if_pos (Or.inr rfl), if_pos hmem]
      rw [show ('-' :: (ds ++ ',' :: r)) = ('-' :: ds) ++ ',' :: r from rfl]
      rw [hstop.1]
    · rw [netsenderExtractJsonC_reduce json nm k '-' (ds ++ ',' :: r) haf hcd]
      rw [if_pos (Or.inr rfl), if_pos hmem]
      rw [show ('-' :: (ds ++ ',' :: r)) = ('-' :: ds) ++ ',' :: r from rfl]
      rw [hstop.1]

/-- Integer value terminated by the closing brace: the esp32 extractor
returns exactly the signed digit run, while the Arduino extractor includes
the trailing brace. -/
theorem extract_int_end (json nm : List Char) (k : Nat) (sgn ds : List Char)
    (haf : afterFirst ('"' :: (nm ++ ['"'])) json =
      some (':' :: (List.replicate k ' ' ++ ((sgn ++ ds) ++ ['\x7d']))))
    (hsgn : sgn = [] ∨ sgn = ['-']) (hds : ds ≠ [])
    (hdig : ∀ d ∈ ds, d.isDigit = true) :
    netsenderExtractJsonC json nm = some (sgn ++ ds) ∧
    extractJsonC json nm = some ((sgn ++ ds) ++ ['\x7d']) := by
  rcases hsgn with rfl | rfl
  · obtain ⟨d, ds', rfl⟩ : ∃ d ds', ds = d :: ds' := by
      rcases ds with _ | ⟨d, ds'⟩
      · exact absurd rfl hds
      · exact ⟨d, ds', rfl⟩
    simp only [List.nil_append, List.cons_append] at haf ⊢
    have hcd : ¬ d = ' ' := isDigit_ne d ' ' (hdig d (by simp)) (by decide)
    have hnc : ¬ ',' ∈ d :: (ds' ++ ['\x7d']) := by
      intro hmem
      rcases List.mem_cons.mp hmem with he | hmem'
      · exact isDigit_ne d ',' (hdig d (by simp)) (by decide) he.symm
      · rcases List.mem_append.mp hmem' with h1 | h1
        · exact isDigit_ne ',' ',' (hdig ',' (by simp [h1])) (by decide) rfl
        · simp at h1
    have hb : '\x7d' ∈ d :: (ds' ++ ['\x7d']) := by simp
    have hstop := takeWhile_append_stop (fun x => decide (¬ x = '\x7d'))
      (d :: ds') '\x7d' []
      (fun a ha => decide_eq_true (isDigit_ne a '\x7d' (hdig a ha) (by decide)))
      (by decide)
    constructor
    · rw [netsenderExtractJsonC_reduce json nm k d (ds' ++ ['\x7d']) haf hcd]
      rw [if_pos (Or.inl (hdig d (by simp))), if_neg hnc, if_pos hb]
      rw [show (d :: (ds' ++ ['\x7d'])) = (d :: ds') ++ '\x7d' :: [] from rfl]
      rw [hstop.1]
    · rw [extractJsonC_reduce json nm k d (ds' ++ ['\x7d']) haf hcd]
      rw [if_pos (Or.inl (hdig d (by simp))), if_neg hnc]
  · simp only [List.cons_append, List.nil_append] at haf ⊢
    have hcd : ¬ '-' = ' ' := by decide
    have hnc : ¬ ',' ∈ '-' :: (ds ++ ['\x7d']) := by
      intro hmem
      rcases List.mem_cons.mp hmem with he | hmem'
      · cases he
      · rcases List.mem_append.mp hmem' with h1 | h1
        · exact isDigit_ne ',' ',' (hdig ',' h1) (by decide) rfl
        · simp at h1
    have hb : '\x7d' ∈ '-' :: (ds ++ ['\x7d']) := by simp
    have hstop := takeWhile_append_stop (fun x => decide (¬ x = '\x7d'))
      ('-' :: ds) '\x7d' []
      (by
        intro a ha
        rcases List.mem_cons.mp ha with rfl | ha'
        · decide
        · exact decide_eq_true (isDigit_ne a '\x7d' (hdig a ha') (by decide)))
      (by decide)
    constructor
    · rw [netsenderExtractJsonC_reduce json nm k '-' (ds ++ ['\x7d']) haf hcd]
      rw [if_pos (Or.inr rfl), if_neg hnc, if_pos hb]
      rw [show ('-' :: (ds ++ ['\x7d'])) = ('-' :: ds) ++ '\x7d' :: [] from rfl]
      rw [hstop.1]
    · rw [extractJsonC_reduce json nm k '-' (ds ++ ['\x7d']) haf hcd]
      rw [if_pos (Or.inr rfl), if_neg hnc]

/-- Quoted-string value: both extractors return the characters up to the
next quote. -/
theorem extract_string (json nm : List Char) (k : Nat) (s post : List Char)
    (haf : afterFirst ('"' :: (nm ++ ['"'])) json =
      some (':' :: (List.replicate k ' ' ++ (('"' :: (s ++ ['"'])) ++ post))))
    (hs : ∀ a ∈ s, a ≠ '"') :
    extractJsonC json nm = some s ∧
    netsenderExtractJsonC json nm = some s := by
  have haf' : afterFirst ('"' :: (nm ++ ['"'])) json =
      some (':' :: (List.replicate k ' ' ++ ('"' :: (s ++ '"' :: post)))) := by
    rw [haf]
    simp
  have hcq : ¬ '"' = ' ' := by decide
  have hqm : '"' ∈ s ++ '"' :: post := by simp
  have hstop := takeWhile_append_stop (fun x => decide (¬ x = '"')) s '"' post
    (fun a ha => decide_eq_true (hs a ha)) (by decide)
  have hno : ¬ ('"'.isDigit ∨ '"' = '-') := by decide
  constructor
  · rw [extractJsonC_reduce json nm k '"' (s ++ '"' :: post) haf' hcq]
    rw [if_neg hno, if_pos rfl, if_pos hqm, hstop.1]
  · rw [netsenderExtractJsonC_reduce json nm k '"' (s ++ '"' :: post) haf' hcq]
    rw [if_neg hno, if_pos rfl, if_pos hqm, hstop.1]

/-- A list is a `isPrefixOf`-prefix of itself followed by anything. -/
theorem isPrefixOf_self_append {α : Type} [DecidableEq α] (q t : List α) :
    q.isPrefixOf (q ++ t) = true := by
  induction q with
  | nil => simp
  | cons a q' ih =>
    rw [List.cons_append, List.isPrefixOf_cons₂]
    simp [ih]

/-- `afterFirst` on a haystack with the needle as a literal prefix. -/
theorem afterFirst_pos (q hay : List Char) (h : q.isPrefixOf hay = true) :
    afterFirst q hay = some (hay.drop q.length) := by
  rcases hay with _ | ⟨c, t⟩
  · unfold afterFirst
    rw [if_pos h]
    simp
  · unfold afterFirst
    rw [if_pos h]

/-- When the needle occurs somewhere in the haystack, `afterFirst` succeeds. -/
theorem afterFirst_occurs (q post : List Char) : ∀ (pre : List Char),
    afterFirst q (pre ++ q ++ post) ≠ none := by
  intro pre
  induction pre with
  | nil =>
    rw [List.nil_append, afterFirst_pos q _ (isPrefixOf_self_append q post)]
    simp
  | cons c pre' ih =>
    show afterFirst q (c :: (pre' ++ q ++ post)) ≠ none
    unfold afterFirst
    by_cases hq : q.isPrefixOf (c :: (pre' ++ q ++ post)) = true
    · rw [if_pos hq]
      simp
    · rw [if_neg hq]
      exact ih

/-- C6 (amended): when the quoted key does not occur in the body, both
`extractJson` and `netsender_extract_json` return absent (false), not an
error.  When the first occurrence of the quoted key is followed by a colon,
optional spaces and a value, the extractors return: for an integer value
terminated by a comma, exactly the signed digit run (both extractors); for an
integer value terminated by the end of the flat object, exactly the signed
digit run in `netsender_extract_json` but the digit run with the trailing
brace included in `extractJson`; and for a quoted-string value, exactly the
characters up to the next quote (both extractors). -/
theorem c6_extract_field :
    (∀ (json name : String),
      (¬ ∃ pre post, json.data = pre ++ ('"' :: (name.data ++ ['"'])) ++ post) →
      extractJson json name = none ∧ netsender_extract_json json name = none) ∧
    (∀ (json name : String) (k : Nat) (sgn ds r : List Char),
      afterFirst ('"' :: (name.data ++ ['"'])) json.data =
        some (':' :: (List.replicate k ' ' ++ ((sgn ++ ds) ++ (',' :: r)))) →
      (sgn = [] ∨ sgn = ['-']) → ds ≠ [] → (∀ d ∈ ds, d.isDigit = true) →
      extractJson json name = some ⟨sgn ++ ds⟩ ∧
      netsender_extract_json json name = some ⟨sgn ++ ds⟩) ∧
    (∀ (json name : String) (k : Nat) (sgn ds : List Char),
      afterFirst ('"' :: (name.data ++ ['"'])) json.data =
        some (':' :: (List.replicate k ' ' ++ ((sgn ++ ds) ++ ['\x7d']))) →
      (sgn = [] ∨ sgn = ['-']) → ds ≠ [] → (∀ d ∈ ds, d.isDigit = true) →
      netsender_extract_json json name = some ⟨sgn ++ ds⟩ ∧
      extractJson json name = some ⟨(sgn ++ ds) ++ ['\x7d']⟩) ∧
    (∀ (json name : String) (k : Nat) (s post : List Char),
      afterFirst ('"' :: (name.data ++ ['"'])) json.data =
        some (':' :: (List.replicate k ' ' ++ (('"' :: (s ++ ['"'])) ++ post))) →
      (∀ a ∈ s, a ≠ '"') →
      extractJson json name = some ⟨s⟩ ∧
      netsender_extract_json json name = some ⟨s⟩) := by
  refine ⟨?_, ?_, ?_, ?_⟩
  · intro json name h
    have hn := afterFirst_none _ _ h
    have h1 : extractJsonC json.data name.data = none := by
      unfold extractJsonC
      rw [hn]
    have h2 : netsenderExtractJsonC json.data name.data = none := by
      unfold netsenderExtractJsonC
      rw [hn]
    constructor
    · unfold extractJson
      rw [h1]
      rfl
    · unfold netsender_extract_json
      rw [h2]
      rfl
  · intro json name k sgn ds r haf hsgn hds hdig
    have h := extract_int_comma json.data name.data k sgn ds r haf hsgn hds hdig
    constructor
    · unfold extractJson
      rw [h.1]
      rfl
    · unfold netsender_extract_json
      rw [h.2]
      rfl
  · intro json name k sgn ds haf hsgn hds hdig
    have h := extract_int_end json.data name.data k sgn ds haf hsgn hds hdig
    constructor
    · unfold netsender_extract_json
      rw [h.1]
      rfl
    · unfold extractJson
      rw [h.2]
      rfl
  · intro json name k s post haf hs
    have h := extract_string json.data name.data k s post haf hs
    constructor
    · unfold extractJson
      rw [h.1]
      rfl
    · unfold netsender_extract_json
      rw [h.2]
      rfl

/-- Witness for C6 on the body `{"mp": 60,"er":"low voltage","vs":5}`: "mp"
is a spaced integer field terminated by a comma, "er" a quoted string, "vs"
an integer field terminated by the closing brace, and "ap" is absent. -/
theorem c6_extract_field_witness :
    (extractJson "\x7b\"mp\": 60,\"er\":\"low voltage\",\"vs\":5\x7d" "mp" = some "60" ∧
      netsender_extract_json "\x7b\"mp\": 60,\"er\":\"low voltage\",\"vs\":5\x7d" "mp" = some "60") ∧
    (netsender_extract_json "\x7b\"mp\": 60,\"er\":\"low voltage\",\"vs\":5\x7d" "vs" = some "5" ∧
      extractJson "\x7b\"mp\": 60,\"er\":\"low voltage\",\"vs\":5\x7d" "vs" = some "5\x7d") ∧
    (extractJson "\x7b\"mp\": 60,\"er\":\"low voltage\",\"vs\":5\x7d" "er" = some "low voltage" ∧
      netsender_extract_json "\x7b\"mp\": 60,\"er\":\"low voltage\",\"vs\":5\x7d" "er" = some "low voltage") ∧
    (extractJson "\x7b\"mp\": 60,\"er\":\"low voltage\",\"vs\":5\x7d" "ap" = none ∧
      netsender_extract_json "\x7b\"mp\": 60,\"er\":\"low voltage\",\"vs\":5\x7d" "ap" = none) := by
  refine ⟨?_, ?_, ?_, ?_⟩
  · exact c6_extract_field.2.1 "\x7b\"mp\": 60,\"er\":\"low voltage\",\"vs\":5\x7d" "mp"
      1 [] ['6', '0'] "\"er\":\"low voltage\",\"vs\":5\x7d".data
      (by decide) (Or.inl rfl) (by decide) (by decide)
  · exact c6_extract_field.2.2.1 "\x7b\"mp\": 60,\"er\":\"low voltage\",\"vs\":5\x7d" "vs"
      0 [] ['5'] (by decide) (Or.inl rfl) (by decide) (by decide)
  · exact c6_extract_field.2.2.2 "\x7b\"mp\": 60,\"er\":\"low voltage\",\"vs\":5\x7d" "er"
      0 "low voltage".data "\x2c\"vs\":5\x7d".data (by decide) (by decide)
  · refine c6_extract_field.1 "\x7b\"mp\": 60,\"er\":\"low voltage\",\"vs\":5\x7d" "ap" ?_
    rintro ⟨pre, post, heq⟩
    have h1 : afterFirst ('"' :: ("ap".data ++ ['"']))
        ("\x7b\"mp\": 60,\"er\":\"low voltage\",\"vs\":5\x7d" : String).data = none := by
      decide
    rw [heq] at h1
    exact afterFirst_occurs _ post pre h1
